import Mathlib

/-!
Verification of the trait-combination generation engine of an NFT image
generator written in Rust (single source file `src/main.rs`).

The Rust code is shallowly embedded: pure functions become Lean functions,
the `while` generation loop becomes a fuel-indexed loop, panics become
`Option.none`, machine integers become `Nat` (the quantities involved are
weights, counts and indices; overflow of `u64`/`u32`/`usize` is not reachable
on the inputs the claims are about and is not modelled), and the process-wide
random generator becomes an explicit stream parameter `rand : Nat → Nat`
whose draws are reduced into the half-open range the code samples from.
`HashMap<u64, Vec<String>>` is modelled as an association list with
insert-or-replace semantics and the `DefaultHasher` fingerprint as a function
parameter `hash`.  Regex matching of the configured skip patterns is
abstracted as a parameter `matcher : pattern → item → Bool` standing for
`Regex::is_match`.  File paths are modelled through their `'/'`-separated
component lists (the code itself splits on `'/'`; `Path::parent`/`file_name`
agree with the component view on the clean relative paths the program
produces).
-/

namespace NftGen

/-! ## 4.1 Weight parser (`calculate_weights_and_total`, main.rs 199-219)

`RE_WEIGHT = #\d*`: every `'#'` starts a match that captures the maximal
(possibly empty) digit run after it.  Each captured digit string is parsed
with `str::parse::<u64>().unwrap()`, which panics on an empty string; the
panic is modelled as `none`. -/

/-- The list of digit runs captured by `RE_WEIGHT.captures_iter`
(with the leading `'#'` already trimmed).  A digit contains no `'#'`,
so restarting the scan right after the `'#'` yields the same
non-overlapping matches the regex engine produces. -/
def weightMatches : List Char → List (List Char)
  | [] => []
  | c :: cs =>
    if c = '#' then (cs.takeWhile Char.isDigit) :: weightMatches cs
    else weightMatches cs

/-- Model of `str::parse::<u64>` on a digit run: fails (panics at the `unwrap`)
on the empty string. -/
def parseDigits (ds : List Char) : Option Nat :=
  if ds.isEmpty then none
  else some (ds.foldl (fun acc c => acc * 10 + (c.toNat - 48)) 0)

/-- Sum of the parsed weight occurrences of one filename
(`accumulated_weight` in the source); `none` models the panic when some
occurrence has no digits. -/
def sumParsed : List (List Char) → Option Nat
  | [] => some 0
  | ds :: rest =>
    match parseDigits ds, sumParsed rest with
    | some v, some s => some (v + s)
    | _, _ => none

def accumulatedWeight (filename : String) : Option Nat :=
  sumParsed (weightMatches filename.data)

/-- The loop body of `calculate_weights_and_total`:
`total_weight += accumulated_weight; weights.push(total_weight)`. -/
def calcGo : List String → List Nat → Nat → Option (List Nat × Nat)
  | [], ws, total => some (ws, total)
  | f :: rest, ws, total =>
    match accumulatedWeight f with
    | none => none
    | some w => calcGo rest (ws ++ [total + w]) (total + w)

def calculate_weights_and_total (layer : List String) : Option (List Nat × Nat) :=
  calcGo layer [] 0

/-- Spec-side helper: the running cumulative sums of a list of per-option
weights, starting from accumulator `acc`. -/
def cumulative : List Nat → Nat → List Nat
  | [], _ => []
  | w :: ws, acc => (acc + w) :: cumulative ws (acc + w)

/-- Spec-side helper: the per-option weights of a layer, `none` if any
option panics the parser. -/
def weightsOf : List String → Option (List Nat)
  | [] => some []
  | f :: rest =>
    match accumulatedWeight f, weightsOf rest with
    | some w, some ws => some (w :: ws)
    | _, _ => none

/-! ## 4.3 Weighted sampler (`choose_image_with_precomputed_weights`,
main.rs 221-235)

`weights.binary_search_by(|&probe| probe.cmp(&random_value))` is
`slice::binary_search_by` of the Rust standard library; its loop is
embedded below with the iteration count (which never exceeds the initial
`size`) as structural fuel so that the definition evaluates by `decide`.
The code uses the returned index identically in the `Ok` and `Err` cases. -/

def bsearchGo (c : List Nat) (t : Nat) : Nat → Nat → Nat → Nat
  | 0, base, _ => base
  | fuel + 1, base, size =>
    if size ≤ 1 then base
    else
      let half := size / 2
      let mid := base + half
      bsearchGo c t fuel (if t < c.getD mid 0 then base else mid) (size - half)

/-- The index `chosen_index` the source extracts from
`binary_search_by` (`Ok(i) => i, Err(i) => i`). -/
def rustBinarySearch (c : List Nat) (t : Nat) : Nat :=
  if c.length = 0 then 0
  else
    let b := bsearchGo c t c.length 0 c.length
    if c.getD b 0 = t then b
    else if c.getD b 0 < t then b + 1
    else b

/-- Model of `choose_image_with_precomputed_weights`: the uniform draw
`rng.sample(Uniform::from(0..total_weight))` is modelled by reducing the
stream value `r` into `[0, total)`; out-of-range indexing (impossible for
the cumulative tables the callers supply) is modelled with `getD`. -/
def choose_image_with_precomputed_weights
    (layer : List String) (weights : List Nat) (total : Nat) (r : Nat) : String :=
  layer.getD (rustBinarySearch weights (r % total)) ""

/-- Number of draw values `r ∈ [0, T)` for which the sampler selects
index `i` of the cumulative table `c`. -/
def countFor (c : List Nat) (T i : Nat) : Nat :=
  ((Finset.range T).filter (fun r => rustBinarySearch c r = i)).card

/-! ## Error type (`CustomError`, main.rs 88-95) -/

inductive CustomError
  | GetEntriesByPath (path : String)
  | InvalidTrait (msg : String)
  | InvalidTotalSupply (expected actual : Nat)
  | TotalPercentageExceeded (msg : String)
  | InvalidImageExtension (msg : String)
deriving DecidableEq, Repr

/-! ## String helpers

Core `String` functions that the source relies on are re-implemented over
the character list so that every definition evaluates inside the kernel. -/

/-- Rust `str::split(sep)` (on a single character). -/
def splitOnChar (sep : Char) : List Char → List (List Char)
  | [] => [[]]
  | c :: rest =>
    let r := splitOnChar sep rest
    if c = sep then [] :: r
    else
      match r with
      | g :: gs => (c :: g) :: gs
      | [] => [[c]]

/-- Rust `str::starts_with` (string pattern). -/
def startsWithList : List Char → List Char → Bool
  | _, [] => true
  | [], _ :: _ => false
  | a :: as_, b :: bs => a = b && startsWithList as_ bs

def strStartsWith (s pat : String) : Bool :=
  startsWithList s.data pat.data

/-- Model of `s.split('#').next().unwrap_or("")`: the part before the first `'#'`. -/
def stripWeightSuffix (s : String) : String :=
  ⟨(splitOnChar '#' s.data).headD []⟩

/-- Rust `str::trim_start_matches(pat)`: repeatedly removes the leading
occurrence of `pat`.  The remaining input length bounds the number of
removals and serves as structural fuel. -/
def trimGoChars (pat : List Char) : Nat → List Char → List Char
  | 0, s => s
  | fuel + 1, s =>
    if pat.isEmpty then s
    else if startsWithList s pat then trimGoChars pat fuel (s.drop pat.length)
    else s

def trimStartMatches (s pat : String) : String :=
  ⟨trimGoChars pat.data s.data.length s.data⟩

/-! ## `strsim::levenshtein`

Standard edit distance; the sum of the two lengths bounds the recursion
depth and serves as structural fuel (each recursive call shortens the
combined input by at least one character). -/

def levFuel : Nat → List Char → List Char → Nat
  | _, [], ys => ys.length
  | _, x :: xs, [] => (x :: xs).length
  | 0, xs, ys => xs.length + ys.length
  | fuel + 1, x :: xs, y :: ys =>
    if x = y then levFuel fuel xs ys
    else 1 + min (levFuel fuel xs (y :: ys)) (min (levFuel fuel (x :: xs) ys) (levFuel fuel xs ys))

def levenshtein (a b : String) : Nat :=
  levFuel (a.data.length + b.data.length) a.data b.data

/-! ## 4.4 Trait reconciler (`compare_and_verify_traits`, main.rs 153-197)

`Vec::sort` / `sort_by_cached_key` are stable sorts; a stable sort's output
is determined by the comparison alone, so they are modelled with
`List.insertionSort` (also stable).  The plain sorts compare whole strings
with Rust's `Ord` on `String` — byte-wise lexicographic order, which for
valid UTF-8 coincides with code-point-wise lexicographic order, modelled by
`strLe` below; the final sort compares the cached `best_index` keys. -/

def charListLe : List Char → List Char → Bool
  | [], _ => true
  | _ :: _, [] => false
  | a :: as_, b :: bs => if a = b then charListLe as_ bs else decide (a.toNat < b.toNat)

def strLe (a b : String) : Bool := charListLe a.data b.data

theorem char_toNat_inj {a b : Char} (h : a.toNat = b.toNat) : a = b :=
  Char.ext (UInt32.ext h)

theorem charListLe_total : ∀ xs ys : List Char,
    charListLe xs ys = true ∨ charListLe ys xs = true := by
  intro xs
  induction xs with
  | nil => intro ys; left; rfl
  | cons a as_ ih =>
    intro ys
    cases ys with
    | nil => right; rfl
    | cons b bs =>
      by_cases hab : a = b
      · subst hab
        simp only [charListLe, if_pos rfl]
        exact ih bs
      · have hne : a.toNat ≠ b.toNat := fun h => hab (char_toNat_inj h)
        simp only [charListLe, if_neg hab, if_neg (Ne.symm hab)]
        rcases Nat.lt_or_ge a.toNat b.toNat with h | h
        · left; simpa using h
        · right; simp; omega

theorem charListLe_trans : ∀ xs ys zs : List Char,
    charListLe xs ys = true → charListLe ys zs = true → charListLe xs zs = true := by
  intro xs
  induction xs with
  | nil => intro ys zs _ _; rfl
  | cons a as_ ih =>
    intro ys zs h1 h2
    cases ys with
    | nil => simp [charListLe] at h1
    | cons b bs =>
      cases zs with
      | nil => simp [charListLe] at h2
      | cons c cs =>
        simp only [charListLe] at h1 h2 ⊢
        by_cases hab : a = b
        · subst hab
          rw [if_pos rfl] at h1
          by_cases hbc : a = c
          · subst hbc
            rw [if_pos rfl] at h2 ⊢
            exact ih bs cs h1 h2
          · rw [if_neg hbc] at h2 ⊢
            exact h2
        · rw [if_neg hab] at h1
          have hlt1 : a.toNat < b.toNat := by simpa using h1
          by_cases hbc : b = c
          · have hac : a ≠ c := fun h => hab (h.trans hbc.symm)
            rw [if_neg hac]
            have hlt : a.toNat < c.toNat := hbc ▸ hlt1
            simpa using hlt
          · rw [if_neg hbc] at h2
            have hlt2 : b.toNat < c.toNat := by simpa using h2
            have hac : a ≠ c := by
              intro h
              subst h
              omega
            rw [if_neg hac]
            simp
            omega

theorem charListLe_antisymm : ∀ xs ys : List Char,
    charListLe xs ys = true → charListLe ys xs = true → xs = ys := by
  intro xs
  induction xs with
  | nil =>
    intro ys _ h2
    cases ys with
    | nil => rfl
    | cons b bs => simp [charListLe] at h2
  | cons a as_ ih =>
    intro ys h1 h2
    cases ys with
    | nil => simp [charListLe] at h1
    | cons b bs =>
      simp only [charListLe] at h1 h2
      by_cases hab : a = b
      · subst hab
        rw [if_pos rfl] at h1 h2
        rw [ih bs h1 h2]
      · rw [if_neg hab] at h1
        rw [if_neg (Ne.symm hab)] at h2
        have := of_decide_eq_true h1
        have := of_decide_eq_true h2
        omega

instance : IsTotal String (fun a b => strLe a b = true) :=
  ⟨fun a b => charListLe_total a.data b.data⟩

instance : IsTrans String (fun a b => strLe a b = true) :=
  ⟨fun a b c => charListLe_trans a.data b.data c.data⟩

instance : IsAntisymm String (fun a b => strLe a b = true) :=
  ⟨fun a b h1 h2 => String.ext (charListLe_antisymm a.data b.data h1 h2)⟩

/-- The `sort_by_cached_key` key: index of the configured entry with the
minimum Levenshtein distance to the (base-path-trimmed) discovered entry,
ties broken by first occurrence.  `usize::MAX` as the initial best score is
modelled by `Option.none` (every real score beats it, as in the source,
where a Levenshtein distance is always below `usize::MAX`). -/
def bestConfigIndex (cfg : List String) (base : String) (item : String) : Nat :=
  (cfg.foldl
    (fun (acc : Nat × Option Nat × Nat) cfgItem =>
      let score := levenshtein cfgItem (trimStartMatches item base)
      match acc with
      | (idx, none, _) => (idx + 1, some score, idx)
      | (idx, some best, bestIdx) =>
        if score < best then (idx + 1, some score, idx)
        else (idx + 1, some best, bestIdx))
    (0, none, 0)).2.2

def compare_and_verify_traits (traits_by_path traits_by_config : List String)
    (base_path : String) : Except CustomError (List String) :=
  if traits_by_path.length ≠ traits_by_config.length then
    .error (.InvalidTrait ("[traits_by_path: " ++ toString traits_by_path.length ++
      " traits_by_config: " ++ toString traits_by_config.length ++ "]"))
  else
    let treated := (traits_by_path.map stripWeightSuffix).insertionSort
      (fun a b => strLe a b = true)
    let sortedConfig := traits_by_config.insertionSort (fun a b => strLe a b = true)
    if treated ≠ sortedConfig then
      .error (.InvalidTrait "[traits_by_path and traits_by_config are different]")
    else
      .ok (traits_by_path.insertionSort
        (fun a b => bestConfigIndex traits_by_config base_path a ≤
                    bestConfigIndex traits_by_config base_path b))

/-! ## 4.5 Feasibility counter (`get_permutations`, main.rs 383-403) -/

def get_permutations (matcher : String → String → Bool)
    (layers : List (List String)) (skipped : Option (List String)) : Nat :=
  layers.foldl
    (fun acc layer =>
      acc *
        (match skipped with
         | some pats =>
           max (layer.filter (fun item => !(pats.any (fun p => matcher p item)))).length 1
         | none => max layer.length 1))
    1

/-! ## 4.6 Forced-combination partitioner (`should_include_file`,
main.rs 426-482) -/

inductive Layer
  | Simple (name : String)
  | Complex (mainLayer subLayer : String)
deriving DecidableEq, Repr

structure ForcedCombo where
  layer : Layer
  value : String
deriving DecidableEq, Repr

/-- Model of `file_path.split('/')`. -/
def pathParts (file_path : String) : List String :=
  (splitOnChar '/' file_path.data).map fun cs => ⟨cs⟩

/-- Model of `path.parent().and_then(file_name)` for a clean relative path:
its second-to-last component, defaulting to `base_path`. -/
def parentOf (parts : List String) (base : String) : String :=
  if 2 ≤ parts.length then parts.getD (parts.length - 2) base else base

/-- Model of `path.parent().and_then(parent).and_then(file_name)`: the
third-to-last component, defaulting to `base_path`. -/
def grandparentOf (parts : List String) (base : String) : String :=
  if 3 ≤ parts.length then parts.getD (parts.length - 3) base else base

/-- Model of `path_parts.last().unwrap().split('#').next().unwrap()`. -/
def fileNameOf (parts : List String) : String :=
  stripWeightSuffix (parts.getLastD "")

/-- Model of `target_layer_to_find`. -/
def targetLayer (parts : List String) (base : String) : String :=
  if grandparentOf parts base = base then parentOf parts base
  else grandparentOf parts base

/-- The predicate of the `find` over the rule's constraints. -/
def layerReferences (l : Layer) (target : String) : Bool :=
  match l with
  | .Simple name => name == target
  | .Complex m s => m == target || s == target

def should_include_file (forced_combinations : List ForcedCombo)
    (file_path : String) (base_path : String) : Bool :=
  let parts := pathParts file_path
  let parent := parentOf parts base_path
  let grandparent := grandparentOf parts base_path
  let file_name := fileNameOf parts
  let target := if grandparent = base_path then parent else grandparent
  match forced_combinations.find? (fun fc => layerReferences fc.layer target) with
  | some fc =>
    match fc.layer with
    | .Simple layer => strStartsWith file_name fc.value && parent == layer
    | .Complex m s =>
      if fc.value = "*" then grandparent == m && strStartsWith parent s
      else grandparent == m && strStartsWith parent s && strStartsWith file_name fc.value
  | none => true

/-! ## 4.7 Combination generator (`generate_permutations`, main.rs 236-276)

The `while permutations.len() < total_supply` loop is indexed by fuel
(`none` = the loop has not yet finished within the given fuel, which for an
infeasible target is every fuel).  `HashMap<u64, Vec<String>>` becomes an
association list with insert-or-replace, `HashSet<Vec<String>>` a plain
list, `DefaultHasher` the parameter `hash`, and `thread_rng` the stream
`rand` (draw counter threaded through the state); a uniform draw over a
nonempty range of size `n` is the stream value reduced `% n`. -/

/-- Model of `calculate_weights_and_total` applied to all layers
(`layers.iter().map(..).collect()`); `none` propagates a parser panic. -/
def calcAll : List (List String) → Option (List (List Nat × Nat))
  | [] => some []
  | l :: rest =>
    match calculate_weights_and_total l, calcAll rest with
    | some wt, some r => some (wt :: r)
    | _, _ => none

/-- One pass of the body's `filter_map`: empty layers contribute nothing,
zero-total layers are drawn uniformly (`layer.choose`), the rest through the
weighted sampler.  Returns the candidate combination and the advanced draw
counter. -/
def drawCombo (rand : Nat → Nat) :
    List (List String × (List Nat × Nat)) → Nat → List String × Nat
  | [], ctr => ([], ctr)
  | (layer, (ws, total)) :: rest, ctr =>
    if layer.isEmpty then drawCombo rand rest ctr
    else
      let x :=
        if total = 0 then layer.getD (rand ctr % layer.length) ""
        else choose_image_with_precomputed_weights layer ws total (rand ctr)
      let next := drawCombo rand rest (ctr + 1)
      (x :: next.1, next.2)

/-- Model of `HashMap::insert`: replace the entry of an existing key, otherwise
append. -/
def insertAssoc (k : Nat) (v : List String) :
    List (Nat × List String) → List (Nat × List String)
  | [] => [(k, v)]
  | p :: rest => if p.1 = k then (k, v) :: rest else p :: insertAssoc k v rest

structure GenState where
  permutations : List (Nat × List String)
  seen : List (List String)
  ctr : Nat

def genLoop (hash : List String → Nat) (rand : Nat → Nat)
    (lw : List (List String × (List Nat × Nat))) (target : Nat) :
    Nat → GenState → Option (List (Nat × List String))
  | 0, st => if st.permutations.length < target then none else some st.permutations
  | fuel + 1, st =>
    if st.permutations.length < target then
      let drawn := drawCombo rand lw st.ctr
      let combo := drawn.1
      if combo ∈ st.seen then
        genLoop hash rand lw target fuel { st with ctr := drawn.2 }
      else
        genLoop hash rand lw target fuel
          { permutations := insertAssoc (hash combo) combo st.permutations,
            seen := combo :: st.seen, ctr := drawn.2 }
    else some st.permutations

def generate_permutations (hash : List String → Nat) (rand : Nat → Nat)
    (layers : List (List String)) (total_supply : Nat) (fuel : Nat) :
    Option (List (Nat × List String)) :=
  match calcAll layers with
  | none => none
  | some ws => genLoop hash rand (layers.zip ws) total_supply fuel ⟨[], [], 0⟩

/-! ## `main` (generation section, main.rs 484-596)

Only the part from layer discovery to the end of the feasibility message is
modelled; configuration loading, image compositing and file output are
external collaborators.  The directory listing that `get_layers_by_traits`
performs is the oracle parameter `filesOf`.  The source evaluates
`CustomError::TotalPercentageExceeded(..)` (line 520) and
`CustomError::InvalidTotalSupply(..)` (line 595) as expression statements
and discards the values; the `dropped` field records exactly those
constructed-then-discarded error values. -/

structure ConfigModel where
  total_supply : Nat
  base_path : String
  layer_folders : List String
  skipped_traits : Option (List String)
  forced_combinations : List (List ForcedCombo × Nat)

structure MainOutcome where
  permutations : List (Nat × List String)
  possible : Nat
  layerCount : Nat
  dropped : List CustomError
deriving DecidableEq, Repr

structure ForcedState where
  remaining : List (List String)
  notIncludedAll : List (List String)
  perms : List (Nat × List String)
  possible : Nat
  restPct : Nat
  layerCount : Nat
  callIdx : Nat
deriving DecidableEq, Repr

/-- Model of `HashMap::extend`. -/
def extendMap (m new : List (Nat × List String)) : List (Nat × List String) :=
  new.foldl (fun acc p => insertAssoc p.1 p.2 acc) m

/-- The `zip`-driven update of `remaining_layers_for_next_combinations`
(main.rs 552-562): only positions covered by the zipped list are touched,
and only when the zipped entry is nonempty. -/
def updateRemaining : List (List String) → List (List String) → List (List String)
  | [], _ => []
  | r :: rs, [] => r :: rs
  | r :: rs, n :: ns => (if n.isEmpty then r else n) :: updateRemaining rs ns

/-- The per-layer unmatched options a rule's partition produces
(the `not_included` pushes of main.rs 536-548). -/
def notIncludedOf (combo : List ForcedCombo) (base : String)
    (all_layers : List (List String)) : List (List String) :=
  all_layers.map fun l => l.filter fun f => !(should_include_file combo f base)

/-- The per-layer matched options (`included` pushes). -/
def includedOf (combo : List ForcedCombo) (base : String)
    (all_layers : List (List String)) : List (List String) :=
  all_layers.map fun l => l.filter fun f => should_include_file combo f base

/-- One iteration of the `for forced_combination_item` loop.  Note that the
`not_included_layers` vector lives outside the loop in the source and is
never cleared, so the per-rule unmatched lists accumulate across rules and
the `zip` always reads the first rule's entries. -/
def forcedStep (hash : List String → Nat) (rand : Nat → Nat → Nat)
    (matcher : String → String → Bool) (cfg : ConfigModel)
    (all_layers : List (List String)) (fuel : Nat)
    (st : ForcedState) (rule : List ForcedCombo × Nat) : Option ForcedState :=
  let included := includedOf rule.1 cfg.base_path all_layers
  let notIncludedAll := st.notIncludedAll ++ notIncludedOf rule.1 cfg.base_path all_layers
  let remaining := updateRemaining st.remaining notIncludedAll
  let quota := cfg.total_supply * rule.2 / 100
  match generate_permutations hash (rand st.callIdx) included quota fuel with
  | none => none
  | some newPerms =>
    some { remaining := remaining, notIncludedAll := notIncludedAll,
           perms := extendMap st.perms newPerms,
           possible := st.possible + get_permutations matcher included cfg.skipped_traits,
           restPct := st.restPct - quota,
           layerCount := remaining.length,
           callIdx := st.callIdx + 1 }

def forcedLoop (hash : List String → Nat) (rand : Nat → Nat → Nat)
    (matcher : String → String → Bool) (cfg : ConfigModel)
    (all_layers : List (List String)) (fuel : Nat) :
    List (List ForcedCombo × Nat) → ForcedState → Option ForcedState
  | [], st => some st
  | r :: rs, st =>
    match forcedStep hash rand matcher cfg all_layers fuel st r with
    | none => none
    | some st' => forcedLoop hash rand matcher cfg all_layers fuel rs st'

def initForcedState (cfg : ConfigModel) (all_layers : List (List String)) : ForcedState :=
  ⟨all_layers, [], [], 0, cfg.total_supply, 0, 0⟩

/-- main.rs 506-596: the generation section. -/
def mainGenerateSection (hash : List String → Nat) (rand : Nat → Nat → Nat)
    (matcher : String → String → Bool) (cfg : ConfigModel)
    (all_layers : List (List String)) (fuel : Nat) : Option MainOutcome :=
  if cfg.forced_combinations.isEmpty then
    match generate_permutations hash (rand 0) all_layers cfg.total_supply fuel with
    | none => none
    | some perms =>
      let possible := get_permutations matcher all_layers cfg.skipped_traits
      some ⟨perms, possible, all_layers.length,
        if possible < cfg.total_supply then
          [CustomError.InvalidTotalSupply cfg.total_supply possible]
        else []⟩
  else
    let pctSum := (cfg.forced_combinations.map (·.2)).sum
    let dropped0 :=
      if pctSum > 100 then
        [CustomError.TotalPercentageExceeded
          "The sum of the percentages in the forced combinations exceeds 100%."]
      else []
    match forcedLoop hash rand matcher cfg all_layers fuel
        cfg.forced_combinations (initForcedState cfg all_layers) with
    | none => none
    | some st =>
      match generate_permutations hash (rand st.callIdx) st.remaining st.restPct fuel with
      | none => none
      | some residual =>
        some ⟨extendMap st.perms residual, st.possible, st.layerCount,
          dropped0 ++
            (if st.possible < cfg.total_supply then
              [CustomError.InvalidTotalSupply cfg.total_supply st.possible]
            else [])⟩

/-- main.rs 496-596: reconciliation (`?`-propagated), layer discovery via
the `filesOf` oracle, then the generation section. -/
def mainModel (hash : List String → Nat) (rand : Nat → Nat → Nat)
    (matcher : String → String → Bool) (filesOf : String → List String)
    (traits : List String) (cfg : ConfigModel) (fuel : Nat) :
    Option (Except CustomError MainOutcome) :=
  let traits_by_config := cfg.layer_folders.map fun f => cfg.base_path ++ f
  match compare_and_verify_traits traits traits_by_config cfg.base_path with
  | .error e => some (.error e)
  | .ok ordered =>
    match mainGenerateSection hash rand matcher cfg (ordered.map filesOf) fuel with
    | none => none
    | some out => some (.ok out)

/-! # Helper lemmas -/

/-! ## Weight parser -/

theorem calcGo_spec :
    ∀ (layer : List String) (itemws ws : List Nat) (total : Nat),
      weightsOf layer = some itemws →
      calcGo layer ws total = some (ws ++ cumulative itemws total, total + itemws.sum) := by
  intro layer
  induction layer with
  | nil =>
    intro itemws ws total h
    simp only [weightsOf, Option.some.injEq] at h
    subst h
    simp [calcGo, cumulative]
  | cons f rest ih =>
    intro itemws ws total h
    simp only [weightsOf] at h
    cases h1 : accumulatedWeight f with
    | none => rw [h1] at h; exact absurd h (by simp)
    | some w =>
      rw [h1] at h
      cases h2 : weightsOf rest with
      | none => rw [h2] at h; exact absurd h (by simp)
      | some wsr =>
        rw [h2] at h
        simp only [Option.some.injEq] at h
        subst h
        simp only [calcGo, h1]
        rw [ih wsr (ws ++ [total + w]) (total + w) h2]
        simp [cumulative, List.append_assoc]
        omega

/-! ## Feasibility counter -/

theorem foldl_mul_factor (f : List String → Nat) :
    ∀ (ls : List (List String)) (a : Nat),
      ls.foldl (fun acc l => acc * f l) a = a * (ls.map f).prod := by
  intro ls
  induction ls with
  | nil => intro a; simp
  | cons l rest ih =>
    intro a
    simp only [List.foldl_cons, List.map_cons, List.prod_cons]
    rw [ih]
    ring

/-! ## Binary search

For a strictly increasing cumulative table, the index the source extracts
from `binary_search_by` is the index of the first cumulative entry `≥` the
drawn value (`List.findIdx`), and the number of draw values landing on each
index follows from that characterization. -/

theorem pairwise_lt_getD {c : List Nat} (h : c.Pairwise (· < ·)) :
    ∀ i j, i < j → j < c.length → c.getD i 0 < c.getD j 0 := by
  intro i j hij hj
  have hi : i < c.length := lt_trans hij hj
  rw [List.getD_eq_getElem c 0 hi, List.getD_eq_getElem c 0 hj]
  have := List.pairwise_iff_get.mp h ⟨i, hi⟩ ⟨j, hj⟩ hij
  simpa using this

theorem findIdx_ge_spec (t : Nat) :
    ∀ (c : List Nat) (b : Nat), b ≤ c.length →
      (∀ j, j < b → c.getD j 0 < t) →
      (b < c.length → t ≤ c.getD b 0) →
      c.findIdx (fun x => t ≤ x) = b := by
  intro c
  induction c with
  | nil =>
    intro b hb _ _
    simp only [List.length_nil, Nat.le_zero] at hb
    simp [hb, List.findIdx_nil]
  | cons x cs ih =>
    intro b hb hlow hhigh
    cases b with
    | zero =>
      have hx : t ≤ x := by
        have := hhigh (by simp)
        simpa using this
      simp [List.findIdx_cons, hx]
    | succ b' =>
      have hx : x < t := by
        have := hlow 0 (Nat.succ_pos b')
        simpa using this
      have hpx : ¬ t ≤ x := not_le.mpr hx
      rw [List.findIdx_cons]
      simp only [hpx, decide_eq_true_eq, decide_False, cond_false]
      have : cs.findIdx (fun x => t ≤ x) = b' := by
        apply ih
        · simpa using hb
        · intro j hj
          have := hlow (j + 1) (Nat.succ_lt_succ hj)
          simpa using this
        · intro hb'
          have := hhigh (by simpa using Nat.succ_lt_succ hb')
          simpa using this
      omega

theorem bsearchGo_inv (c : List Nat) (t : Nat)
    (hmono : ∀ i j, i < j → j < c.length → c.getD i 0 < c.getD j 0) :
    ∀ (fuel base size : Nat), 1 ≤ size → size ≤ fuel → base + size ≤ c.length →
      (∀ j, j < base → c.getD j 0 < t) →
      (∀ j, base + size ≤ j → j < c.length → t < c.getD j 0) →
      bsearchGo c t fuel base size < c.length ∧
        (∀ j, j < bsearchGo c t fuel base size → c.getD j 0 < t) ∧
        (∀ j, bsearchGo c t fuel base size + 1 ≤ j → j < c.length →
          t < c.getD j 0) := by
  intro fuel
  induction fuel with
  | zero => intro base size h1 h2 _ _ _; omega
  | succ fuel ih =>
    intro base size h1 h2 hlen hlow hhigh
    by_cases hsz : size ≤ 1
    · have hsize : size = 1 := le_antisymm hsz h1
      subst hsize
      simp only [bsearchGo, if_pos (le_refl 1)]
      exact ⟨by omega, hlow, fun j hj hjlen => hhigh j (by omega) hjlen⟩
    · have hsize2 : 2 ≤ size := by omega
      have hhalf : 1 ≤ size / 2 := Nat.one_le_div_iff (by omega) |>.mpr (by omega)
      have hrest : 1 ≤ size - size / 2 := by omega
      have hmid : base + size / 2 < c.length := by
        have : size / 2 < size := Nat.div_lt_self (by omega) (by omega)
        omega
      simp only [bsearchGo, if_neg hsz]
      by_cases hcmp : t < c.getD (base + size / 2) 0
      · simp only [if_pos hcmp]
        apply ih base (size - size / 2) hrest (by omega) (by omega) hlow
        intro j hj hjlen
        have hmidj : base + size / 2 ≤ j := by
          have : size / 2 ≤ size - size / 2 := by omega
          omega
        rcases eq_or_lt_of_le hmidj with heq | hlt
        · rw [← heq]; exact hcmp
        · exact lt_trans hcmp (hmono _ _ hlt hjlen)
      · simp only [if_neg hcmp]
        push_neg at hcmp
        apply ih (base + size / 2) (size - size / 2) hrest (by omega) (by omega)
        · intro j hj
          by_cases hjb : j < base
          · exact hlow j hjb
          · exact lt_of_lt_of_le (hmono j _ (by omega) hmid) hcmp
        · intro j hj hjlen
          exact hhigh j (by omega) hjlen

theorem rustBinarySearch_eq_findIdx (c : List Nat) (t : Nat)
    (hmono : ∀ i j, i < j → j < c.length → c.getD i 0 < c.getD j 0) :
    rustBinarySearch c t = c.findIdx (fun x => t ≤ x) := by
  by_cases hn : c.length = 0
  · have : c = [] := List.length_eq_zero.mp hn
    subst this
    simp [rustBinarySearch, List.findIdx_nil]
  · have hone : 1 ≤ c.length := by omega
    obtain ⟨hblt, hblow, hbhigh⟩ :=
      bsearchGo_inv c t hmono c.length 0 c.length hone (le_refl _) (by omega)
        (by omega) (by omega)
    simp only [rustBinarySearch, if_neg hn]
    set b := bsearchGo c t c.length 0 c.length with hbdef
    by_cases heq : c.getD b 0 = t
    · simp only [if_pos heq]
      exact (findIdx_ge_spec t c b (le_of_lt hblt) hblow
        (fun _ => le_of_eq heq.symm)).symm
    · simp only [if_neg heq]
      by_cases hlt : c.getD b 0 < t
      · simp only [if_pos hlt]
        refine (findIdx_ge_spec t c (b + 1) hblt ?_ ?_).symm
        · intro j hj
          rcases Nat.lt_succ_iff_lt_or_eq.mp hj with hjb | hjb
          · exact hblow j hjb
          · rw [hjb]; exact hlt
        · intro hlen
          exact le_of_lt (hbhigh (b + 1) (le_refl _) hlen)
      · simp only [if_neg hlt]
        refine (findIdx_ge_spec t c b (le_of_lt hblt) hblow (fun _ => ?_)).symm
        omega

theorem findIdx_ge_eq_iff (c : List Nat) (t i : Nat) (hi : i < c.length)
    (hmono : ∀ i j, i < j → j < c.length → c.getD i 0 < c.getD j 0) :
    c.findIdx (fun x => t ≤ x) = i ↔
      (t ≤ c.getD i 0 ∧ (i = 0 ∨ c.getD (i - 1) 0 < t)) := by
  constructor
  · intro h
    have hfi : t ≤ c.getD i 0 := by
      have hw : c.findIdx (fun x => t ≤ x) < c.length := h ▸ hi
      have := @List.findIdx_getElem _ (fun x => t ≤ x) c hw
      rw [← List.getD_eq_getElem c 0 hw] at this
      rw [h] at this
      simpa using this
    refine ⟨hfi, ?_⟩
    cases i with
    | zero => exact Or.inl rfl
    | succ i' =>
      right
      have hlt : i' < c.findIdx (fun x => t ≤ x) := by omega
      have := List.not_of_lt_findIdx hlt
      have hi' : i' < c.length := by omega
      rw [← List.getD_eq_getElem c 0 hi'] at this
      simp only [Nat.add_sub_cancel]
      simpa using this
  · rintro ⟨hle, hcase⟩
    apply findIdx_ge_spec t c i (le_of_lt hi) _ (fun _ => hle)
    intro j hj
    rcases hcase with h0 | hprev
    · omega
    · have hj' : j ≤ i - 1 := by omega
      rcases eq_or_lt_of_le hj' with heq | hlt
      · rw [heq]; exact hprev
      · have hi1 : i - 1 < c.length := by omega
        exact lt_trans (hmono j (i - 1) hlt hi1) hprev

theorem countFor_formula (c : List Nat)
    (hmono : ∀ i j, i < j → j < c.length → c.getD i 0 < c.getD j 0)
    (i : Nat) (hi : i < c.length) :
    countFor c (c.getD (c.length - 1) 0) i =
      min (c.getD i 0 + 1) (c.getD (c.length - 1) 0) -
        (if i = 0 then 0 else c.getD (i - 1) 0 + 1) := by
  unfold countFor
  set T := c.getD (c.length - 1) 0 with hT
  have hset :
      (Finset.range T).filter (fun r => rustBinarySearch c r = i) =
        Finset.Ico (if i = 0 then 0 else c.getD (i - 1) 0 + 1)
          (min (c.getD i 0 + 1) T) := by
    ext r
    simp only [Finset.mem_filter, Finset.mem_range, Finset.mem_Ico]
    rw [rustBinarySearch_eq_findIdx c r hmono, findIdx_ge_eq_iff c r i hi hmono]
    by_cases h0 : i = 0
    · simp only [h0, if_pos rfl]
      constructor
      · rintro ⟨hr, hle, _⟩
        exact ⟨Nat.zero_le r, by omega⟩
      · rintro ⟨_, hr⟩
        exact ⟨by omega, by omega, Or.inl trivial⟩
    · simp only [if_neg h0]
      constructor
      · rintro ⟨hr, hle, hcase⟩
        rcases hcase with hc | hc
        · exact absurd hc h0
        · exact ⟨by omega, by omega⟩
      · rintro ⟨hlo, hhi⟩
        exact ⟨by omega, by omega, Or.inr (by omega)⟩
  rw [hset, Nat.card_Ico]

/-! # Claim theorems -/

/-- Claim C1 (corrected).  `calculate_weights_and_total` assigns each option
the sum of the integer values parsed from its identifier, but an option with
no weight marker contributes the default 0, not 1: when every option parses,
the result is the cumulative-sum table of the per-option weights together
with their grand total, and on the four options with embedded weights
100, 25, 50 and one unweighted option the table is [100, 125, 175, 175]
with total 175 (as the source's own unit test expects). -/
theorem C1_weights_default_zero :
    (∀ (layer : List String) (itemws : List Nat),
      weightsOf layer = some itemws →
      calculate_weights_and_total layer = some (cumulative itemws 0, itemws.sum)) ∧
    calculate_weights_and_total
      ["image#100.png", "image#25.png", "image#50.png", "image.png"] =
      some ([100, 125, 175, 175], 175) ∧
    accumulatedWeight "image.png" = some 0 := by
  refine ⟨fun layer itemws h => ?_, by decide, by decide⟩
  have := calcGo_spec layer itemws [] 0 h
  simpa [calculate_weights_and_total] using this

/-- Witness for C1: on a layer whose options carry weights 2 and none, the
weight list is [2, 0], the cumulative table [2, 2] and the total 2. -/
theorem C1_witness :
    calculate_weights_and_total ["a#2.png", "b.png"] = some ([2, 2], 2) := by
  have h := C1_weights_default_zero.1 ["a#2.png", "b.png"] [2, 0] (by decide)
  simpa [cumulative] using h

/-- Counterexample for C1 as stated: on the claim's own four-option layer
the code does not produce the claimed table [100, 125, 175, 176] with total
176 (the unweighted option contributes 0, not 1). -/
theorem C1_counterexample :
    calculate_weights_and_total
      ["image#100.png", "image#25.png", "image#50.png", "image.png"] ≠
      some ([100, 125, 175, 176], 176) := by
  decide

/-- Claim C9 (code bug).  The weight parser is not total: an identifier
containing a weight marker `'#'` followed by no digits makes
`weight_value.parse::<u64>().unwrap()` panic (`RE_WEIGHT` is `#\d*`, whose
digit part may be empty), modelled here as `none`; the regex does capture
the empty digit run. -/
theorem C9_parser_panics_on_empty_digits :
    calculate_weights_and_total ["image#.png"] = none ∧
    weightMatches "image#.png".data = [[]] := by
  decide

/-- Claim C5 (confirmed).  `get_permutations` is the product over all
layers of the number of options not matching any skip pattern (all options
when no skip list is configured), each factor floored at 1; in particular
sizes [2, 3] give 6, sizes [3, 1, 3] give 9, and an empty layer alongside a
3-option layer gives 3. -/
theorem C5_feasibility_product :
    (∀ (matcher : String → String → Bool) (layers : List (List String))
        (skipped : Option (List String)),
      get_permutations matcher layers skipped =
        (layers.map fun layer =>
          max (layer.filter fun item =>
            !((skipped.getD []).any fun p => matcher p item)).length 1).prod) ∧
    (∀ m : String → String → Bool,
      get_permutations m [["a", "b"], ["x", "y", "z"]] none = 6) ∧
    (∀ m : String → String → Bool,
      get_permutations m [["a", "b", "c"], ["d"], ["x", "y", "z"]] none = 9) ∧
    (∀ m : String → String → Bool,
      get_permutations m [[], ["a", "b", "c"]] none = 3) := by
  refine ⟨fun matcher layers skipped => ?_, fun m => rfl, fun m => rfl, fun m => rfl⟩
  unfold get_permutations
  rw [foldl_mul_factor, one_mul]
  cases skipped with
  | none => simp
  | some pats => simp

/-- Claim C10 (confirmed).  An option whose resolved target layer (parent
folder, or grandparent when the grandparent differs from the base path) is
referenced by no constraint of the rule is counted as matched:
`should_include_file` returns `true`. -/
theorem C10_unreferenced_layer_matches :
    ∀ (fcs : List ForcedCombo) (file_path base_path : String),
      (∀ fc ∈ fcs,
        layerReferences fc.layer (targetLayer (pathParts file_path) base_path) = false) →
      should_include_file fcs file_path base_path = true := by
  intro fcs p b h
  unfold should_include_file
  have hnone :
      (fcs.find? fun fc =>
        layerReferences fc.layer
          (if grandparentOf (pathParts p) b = b then parentOf (pathParts p) b
           else grandparentOf (pathParts p) b)) = none := by
    rw [List.find?_eq_none]
    intro fc hfc
    have := h fc hfc
    simp only [targetLayer] at this
    simp [this]
  simp [hnone]

/-- Witness for C10: a rule on folder "Face" does not constrain an option
living under folder "Hat", which is therefore matched. -/
theorem C10_witness :
    should_include_file [⟨Layer.Simple "Face", "X"⟩] "images/Hat/Z.png" "images" = true :=
  C10_unreferenced_layer_matches [⟨Layer.Simple "Face", "X"⟩] "images/Hat/Z.png" "images"
    (by decide)

/-- Claim C7 (corrected).  For a single forced-combination constraint the
match conditions of the claim apply only when the constraint's
layer-reference names the option's resolved target layer; otherwise the
option is matched unconditionally.  Under a single-name reference equal to
the target, an option matches iff its parent equals that name and its
file-name starts with the rule's value; under a (main, sub) reference
naming the target, it matches iff the grandparent equals main, the parent
starts with sub, and the value is the wildcard or a file-name prefix.  The
spec's concrete example holds: a rule on "Face" with value "X" matches
".../Face/X#25.png" and not the sibling ".../Face/Y#10.png". -/
theorem C7_partition_characterization :
    (∀ (fc : ForcedCombo) (p b : String),
      should_include_file [fc] p b =
        match fc.layer with
        | Layer.Simple name =>
          if name = targetLayer (pathParts p) b then
            strStartsWith (fileNameOf (pathParts p)) fc.value &&
              (parentOf (pathParts p) b == name)
          else true
        | Layer.Complex m s =>
          if m = targetLayer (pathParts p) b ∨ s = targetLayer (pathParts p) b then
            (grandparentOf (pathParts p) b == m) &&
              strStartsWith (parentOf (pathParts p) b) s &&
              ((fc.value == "*") || strStartsWith (fileNameOf (pathParts p)) fc.value)
          else true) ∧
    should_include_file [⟨Layer.Simple "Face", "X"⟩] "images/Face/X#25.png" "images" = true ∧
    should_include_file [⟨Layer.Simple "Face", "X"⟩] "images/Face/Y#10.png" "images" = false := by
  refine ⟨fun fc p b => ?_, by decide, by decide⟩
  obtain ⟨layer, value⟩ := fc
  cases layer with
  | Simple name =>
    simp only [should_include_file, List.find?, layerReferences, targetLayer]
    by_cases h : name = (if grandparentOf (pathParts p) b = b then parentOf (pathParts p) b
        else grandparentOf (pathParts p) b)
    · simp [h]
    · simp [h, beq_eq_false_iff_ne.mpr h]
  | Complex m s =>
    simp only [should_include_file, List.find?, layerReferences, targetLayer]
    by_cases hm : m = (if grandparentOf (pathParts p) b = b then parentOf (pathParts p) b
        else grandparentOf (pathParts p) b)
    · by_cases hv : value = "*"
      · simp [hm, hv]
      · simp [hm, hv, beq_eq_false_iff_ne.mpr hv]
    · by_cases hs : s = (if grandparentOf (pathParts p) b = b then parentOf (pathParts p) b
          else grandparentOf (pathParts p) b)
      · by_cases hv : value = "*"
        · simp [hm, hs, hv, beq_eq_false_iff_ne.mpr hm]
        · simp [hm, hs, hv, beq_eq_false_iff_ne.mpr hm, beq_eq_false_iff_ne.mpr hv]
      · simp [hm, hs, beq_eq_false_iff_ne.mpr hm, beq_eq_false_iff_ne.mpr hs]

/-- Counterexample for C7 as stated: for an option nested one level deeper
("images/Main/Sub/f.png") and a single-name rule on the sub-folder "Sub"
with value "X", the parent folder equals the rule's name while the
file-name does not start with the value, so the claimed iff demands a
non-match; the code nevertheless matches the option (its resolved target
layer is the grandparent "Main", which the rule does not reference). -/
theorem C7_counterexample :
    should_include_file [⟨Layer.Simple "Sub", "X"⟩] "images/Main/Sub/f.png" "images" = true ∧
    parentOf (pathParts "images/Main/Sub/f.png") "images" = "Sub" ∧
    strStartsWith (fileNameOf (pathParts "images/Main/Sub/f.png")) "X" = false := by
  decide

/-- Claim C3 (corrected).  For a strictly increasing cumulative table `c`
with total `T` (its last entry), the sampler selects the option at the
first cumulative entry `≥ r` for every draw `r < T`; but the number of
draws in `[0, T)` that select index `i` is NOT `weight(i)`: it is
`min (c_i + 1) T` minus (`0` for the first index, `c_(i-1) + 1` otherwise),
i.e. `weight(0) + 1` draws for the first option and `weight(n-1) - 1` for
the last when there are at least two options. -/
theorem C3_sampler_characterization :
    ∀ c : List Nat, c.Pairwise (· < ·) → c ≠ [] →
      (∀ (layer : List String) (r : Nat), r < c.getD (c.length - 1) 0 →
        choose_image_with_precomputed_weights layer c (c.getD (c.length - 1) 0) r =
          layer.getD (c.findIdx fun x => r ≤ x) "") ∧
      (∀ i, i < c.length →
        countFor c (c.getD (c.length - 1) 0) i =
          min (c.getD i 0 + 1) (c.getD (c.length - 1) 0) -
            (if i = 0 then 0 else c.getD (i - 1) 0 + 1)) := by
  intro c hpw hne
  have hmono := pairwise_lt_getD hpw
  constructor
  · intro layer r hr
    unfold choose_image_with_precomputed_weights
    rw [Nat.mod_eq_of_lt hr, rustBinarySearch_eq_findIdx c r hmono]
  · intro i hi
    exact countFor_formula c hmono i hi

/-- Witness for C3: on the cumulative table [2, 5] (weights 2 and 3, total
5) the draw r = 3 selects the second option, and 3 of the 5 draw values
select the first option. -/
theorem C3_witness :
    choose_image_with_precomputed_weights ["a", "b"] [2, 5] 5 3 = "b" ∧
    countFor [2, 5] 5 0 = 3 := by
  have h := C3_sampler_characterization [2, 5] (by decide) (by decide)
  constructor
  · have h1 := h.1 ["a", "b"] 3 (by decide)
    simpa using h1
  · have h2 := h.2 0 (by decide)
    simpa using h2

/-- Counterexample for C3 as stated: for the layer with embedded weights 2
and 3 (cumulative table [2, 5], total 5) the number of draw values in
[0, 5) returning option 0 is 3, not weight(0) = 2, and for option 1 it is
2, not weight(1) = 3 — the `>= r` bucket search over `r ∈ [0, total)` is
biased by one draw towards the first option. -/
theorem C3_counterexample :
    calculate_weights_and_total ["a#2.png", "b#3.png"] = some ([2, 5], 5) ∧
    countFor [2, 5] 5 0 = 3 ∧ countFor [2, 5] 5 1 = 2 := by
  decide

/-! ## Generation loop invariants -/

theorem mem_insertAssoc {k : Nat} {v : List String} :
    ∀ {m : List (Nat × List String)} {q : Nat × List String},
      q ∈ insertAssoc k v m → q = (k, v) ∨ q ∈ m := by
  intro m
  induction m with
  | nil => intro q hq; simpa [insertAssoc] using hq
  | cons p rest ih =>
    intro q hq
    simp only [insertAssoc] at hq
    by_cases hk : p.1 = k
    · rw [if_pos hk] at hq
      rcases List.mem_cons.mp hq with h | h
      · exact Or.inl h
      · exact Or.inr (List.mem_cons_of_mem p h)
    · rw [if_neg hk] at hq
      rcases List.mem_cons.mp hq with h | h
      · exact Or.inr (h ▸ List.mem_cons_self p rest)
      · rcases ih h with h' | h'
        · exact Or.inl h'
        · exact Or.inr (List.mem_cons_of_mem p h')

theorem length_insertAssoc_le {k : Nat} {v : List String} :
    ∀ m : List (Nat × List String),
      (insertAssoc k v m).length ≤ m.length + 1 := by
  intro m
  induction m with
  | nil => simp [insertAssoc]
  | cons p rest ih =>
    simp only [insertAssoc]
    by_cases hk : p.1 = k
    · rw [if_pos hk]; simp
    · rw [if_neg hk]
      simpa using Nat.succ_le_succ ih

theorem pairwise_insertAssoc {k : Nat} {v : List String} :
    ∀ m : List (Nat × List String),
      (∀ p ∈ m, p.2 ≠ v) →
      m.Pairwise (fun a b => a.2 ≠ b.2) →
      (insertAssoc k v m).Pairwise (fun a b => a.2 ≠ b.2) := by
  intro m
  induction m with
  | nil => intro _ _; simp [insertAssoc]
  | cons p rest ih =>
    intro hne hpw
    rcases List.pairwise_cons.mp hpw with ⟨hhead, htail⟩
    simp only [insertAssoc]
    by_cases hk : p.1 = k
    · rw [if_pos hk]
      apply List.pairwise_cons.mpr
      refine ⟨fun q hq => ?_, htail⟩
      exact fun h => hne q (List.mem_cons_of_mem p hq) h.symm
    · rw [if_neg hk]
      apply List.pairwise_cons.mpr
      constructor
      · intro q hq
        rcases mem_insertAssoc hq with h | h
        · rw [h]
          exact fun h' => hne p (List.mem_cons_self p rest) h'
        · exact hhead q h
      · exact ih (fun q hq => hne q (List.mem_cons_of_mem p hq)) htail

theorem drawCombo_length (rand : Nat → Nat) :
    ∀ (lw : List (List String × (List Nat × Nat))) (ctr : Nat),
      (drawCombo rand lw ctr).1.length =
        (lw.filter fun q => !q.1.isEmpty).length := by
  intro lw
  induction lw with
  | nil => intro ctr; simp [drawCombo]
  | cons hd rest ih =>
    intro ctr
    obtain ⟨layer, ws, total⟩ := hd
    by_cases hemp : layer.isEmpty
    · simp [drawCombo, hemp, List.filter_cons, ih ctr]
    · simp [drawCombo, hemp, List.filter_cons, ih (ctr + 1)]

theorem zip_filter_isEmpty_length :
    ∀ (ls : List (List String)) (ws : List (List Nat × Nat)),
      ls.length = ws.length →
      ((ls.zip ws).filter fun q => !q.1.isEmpty).length =
        (ls.filter fun l => !l.isEmpty).length := by
  intro ls
  induction ls with
  | nil => intro ws _; simp
  | cons l rest ih =>
    intro ws hlen
    cases ws with
    | nil => simp at hlen
    | cons w wrest =>
      simp only [List.zip_cons_cons, List.filter_cons]
      by_cases hemp : l.isEmpty
      · simp only [hemp, Bool.not_true]
        exact ih wrest (by simpa using hlen)
      · have hemp' : (!l.isEmpty) = true := by simp [hemp]
        simp only [hemp', if_pos]
        simp only [List.length_cons]
        rw [ih wrest (by simpa using hlen)]

theorem calcAll_length :
    ∀ (ls : List (List String)) (ws : List (List Nat × Nat)),
      calcAll ls = some ws → ws.length = ls.length := by
  intro ls
  induction ls with
  | nil =>
    intro ws h
    simp only [calcAll, Option.some.injEq] at h
    simp [← h]
  | cons l rest ih =>
    intro ws h
    simp only [calcAll] at h
    cases h1 : calculate_weights_and_total l with
    | none => rw [h1] at h; exact absurd h (by simp)
    | some wt =>
      rw [h1] at h
      cases h2 : calcAll rest with
      | none => rw [h2] at h; exact absurd h (by simp)
      | some wr =>
        rw [h2] at h
        simp only [Option.some.injEq] at h
        subst h
        simp [ih wr h2]

theorem genLoop_props (hash : List String → Nat) (rand : Nat → Nat)
    (lw : List (List String × (List Nat × Nat))) (N : Nat) :
    ∀ (fuel : Nat) (st : GenState) (res : List (Nat × List String)),
      st.permutations.length ≤ N →
      (∀ p ∈ st.permutations, p.2 ∈ st.seen) →
      st.permutations.Pairwise (fun a b => a.2 ≠ b.2) →
      (∀ p ∈ st.permutations,
        p.2.length = (lw.filter fun q => !q.1.isEmpty).length) →
      genLoop hash rand lw N fuel st = some res →
      res.length = N ∧ res.Pairwise (fun a b => a.2 ≠ b.2) ∧
        ∀ p ∈ res, p.2.length = (lw.filter fun q => !q.1.isEmpty).length := by
  intro fuel
  induction fuel with
  | zero =>
    intro st res hlen _ hpw hK h
    simp only [genLoop] at h
    by_cases hc : st.permutations.length < N
    · rw [if_pos hc] at h; exact absurd h (by simp)
    · rw [if_neg hc] at h
      simp only [Option.some.injEq] at h
      subst h
      exact ⟨by omega, hpw, hK⟩
  | succ fuel ih =>
    intro st res hlen hseen hpw hK h
    simp only [genLoop] at h
    by_cases hc : st.permutations.length < N
    · rw [if_pos hc] at h
      by_cases hmem : (drawCombo rand lw st.ctr).1 ∈ st.seen
      · rw [if_pos hmem] at h
        exact ih { st with ctr := (drawCombo rand lw st.ctr).2 } res hlen hseen hpw hK h
      · rw [if_neg hmem] at h
        apply ih _ res _ _ _ _ h
        · calc (insertAssoc (hash (drawCombo rand lw st.ctr).1)
                (drawCombo rand lw st.ctr).1 st.permutations).length
              ≤ st.permutations.length + 1 := length_insertAssoc_le _
            _ ≤ N := by omega
        · intro p hp
          rcases mem_insertAssoc hp with h' | h'
          · rw [h']
            exact List.mem_cons_self _ _
          · exact List.mem_cons_of_mem _ (hseen p h')
        · apply pairwise_insertAssoc _ _ hpw
          intro p hp hpv
          exact hmem (hpv ▸ hseen p hp)
        · intro p hp
          rcases mem_insertAssoc hp with h' | h'
          · rw [h']
            exact drawCombo_length rand lw st.ctr
          · exact hK p h'
    · rw [if_neg hc] at h
      simp only [Option.some.injEq] at h
      subst h
      exact ⟨by omega, hpw, hK⟩

/-- Claim C2 (corrected).  Whenever `generate_permutations` finishes (for
some draw stream and fuel), it returns exactly N entries, no two of whose
combinations are equal as ordered sequences — but each combination's length
is the number of NON-EMPTY layers, not the number of layers (an empty layer
is skipped by the `filter_map`), and the feasibility ceiling does not by
itself guarantee termination. -/
theorem C2_generate_shape :
    ∀ (hash : List String → Nat) (rand : Nat → Nat) (layers : List (List String))
      (N fuel : Nat) (res : List (Nat × List String)),
      generate_permutations hash rand layers N fuel = some res →
      res.length = N ∧ res.Pairwise (fun a b => a.2 ≠ b.2) ∧
        ∀ p ∈ res, p.2.length = (layers.filter fun l => !l.isEmpty).length := by
  intro hash rand layers N fuel res h
  simp only [generate_permutations] at h
  cases hca : calcAll layers with
  | none => rw [hca] at h; exact absurd h (by simp)
  | some ws =>
    rw [hca] at h
    have hzip : ((layers.zip ws).filter fun q => !q.1.isEmpty).length =
        (layers.filter fun l => !l.isEmpty).length :=
      zip_filter_isEmpty_length layers ws (calcAll_length layers ws hca).symm
    have := genLoop_props hash rand (layers.zip ws) N fuel ⟨[], [], 0⟩ res
      (by simp) (by simp) (by simp) (by simp) h
    rw [hzip] at this
    exact this

/-- Witness for C2: a 1-of-2-layers run that finishes returns one entry of
combination length 2 (both layers non-empty) with no duplicates. -/
theorem C2_witness :
    ([((0 : Nat), ["a", "b"])] : List (Nat × List String)).length = 1 ∧
    ([((0 : Nat), ["a", "b"])] : List (Nat × List String)).Pairwise
      (fun a b => a.2 ≠ b.2) ∧
    ∀ p ∈ ([((0 : Nat), ["a", "b"])] : List (Nat × List String)),
      p.2.length = ([["a"], ["b"]].filter fun l => !l.isEmpty).length :=
  C2_generate_shape (fun _ => 0) (fun _ => 0) [["a"], ["b"]] 1 1 [(0, ["a", "b"])]
    (by decide)

/-! ## Remaining-layers bookkeeping across forced rules -/

theorem updateRemaining_nil_right :
    ∀ r : List (List String), updateRemaining r [] = r := by
  intro r
  cases r with
  | nil => rfl
  | cons x xs => rfl

theorem updateRemaining_length :
    ∀ (r ns : List (List String)), (updateRemaining r ns).length = r.length := by
  intro r
  induction r with
  | nil => intro ns; cases ns <;> rfl
  | cons x xs ih =>
    intro ns
    cases ns with
    | nil => rfl
    | cons n ns' => simp [updateRemaining, ih ns']

theorem updateRemaining_truncate :
    ∀ (r ns ms : List (List String)), r.length ≤ ns.length →
      updateRemaining r (ns ++ ms) = updateRemaining r ns := by
  intro r
  induction r with
  | nil => intro ns ms _; cases ns ++ ms <;> cases ns <;> rfl
  | cons x xs ih =>
    intro ns ms hlen
    cases ns with
    | nil => simp at hlen
    | cons n ns' =>
      simp only [List.cons_append, updateRemaining, List.append_eq]
      rw [ih ns' ms (by simpa using hlen)]

theorem updateRemaining_idem :
    ∀ (r ns : List (List String)),
      updateRemaining (updateRemaining r ns) ns = updateRemaining r ns := by
  intro r
  induction r with
  | nil => intro ns; cases ns <;> rfl
  | cons x xs ih =>
    intro ns
    cases ns with
    | nil => rfl
    | cons n ns' =>
      simp only [updateRemaining, ih ns']
      by_cases hn : n.isEmpty <;> simp [hn]

theorem forcedStep_state (hash : List String → Nat) (rand : Nat → Nat → Nat)
    (matcher : String → String → Bool) (cfg : ConfigModel)
    (all_layers : List (List String)) (fuel : Nat)
    (st st' : ForcedState) (rule : List ForcedCombo × Nat) :
    forcedStep hash rand matcher cfg all_layers fuel st rule = some st' →
    st'.remaining =
      updateRemaining st.remaining
        (st.notIncludedAll ++ notIncludedOf rule.1 cfg.base_path all_layers) ∧
    st'.notIncludedAll =
      st.notIncludedAll ++ notIncludedOf rule.1 cfg.base_path all_layers := by
  intro h
  simp only [forcedStep] at h
  cases hg : generate_permutations hash (rand st.callIdx)
      (includedOf rule.1 cfg.base_path all_layers)
      (cfg.total_supply * rule.2 / 100) fuel with
  | none => rw [hg] at h; exact absurd h (by simp)
  | some newPerms =>
    rw [hg] at h
    simp only [Option.some.injEq] at h
    subst h
    exact ⟨rfl, rfl⟩

theorem forcedLoop_keeps (hash : List String → Nat) (rand : Nat → Nat → Nat)
    (matcher : String → String → Bool) (cfg : ConfigModel)
    (all_layers : List (List String)) (fuel : Nat)
    (notInc0 : List (List String)) (hlen : notInc0.length = all_layers.length) :
    ∀ (rules : List (List ForcedCombo × Nat)) (st st' : ForcedState),
      forcedLoop hash rand matcher cfg all_layers fuel rules st = some st' →
      st.remaining = updateRemaining all_layers notInc0 →
      (∃ extra, st.notIncludedAll = notInc0 ++ extra) →
      st'.remaining = updateRemaining all_layers notInc0 := by
  intro rules
  induction rules with
  | nil =>
    intro st st' h hrem _
    simp only [forcedLoop, Option.some.injEq] at h
    subst h
    exact hrem
  | cons r rs ih =>
    intro st st' h hrem hall
    simp only [forcedLoop] at h
    cases hs : forcedStep hash rand matcher cfg all_layers fuel st r with
    | none => rw [hs] at h; exact absurd h (by simp)
    | some st1 =>
      rw [hs] at h
      obtain ⟨hrem1, hall1⟩ :=
        forcedStep_state hash rand matcher cfg all_layers fuel st st1 r hs
      obtain ⟨extra, hextra⟩ := hall
      have hlen' : (updateRemaining all_layers notInc0).length ≤ notInc0.length := by
        rw [updateRemaining_length]
        omega
      have hrem1' : st1.remaining = updateRemaining all_layers notInc0 := by
        rw [hrem1, hrem, hextra, List.append_assoc,
          updateRemaining_truncate _ _ _ hlen', updateRemaining_idem]
      apply ih st1 st' h hrem1'
      exact ⟨extra ++ notIncludedOf r.1 cfg.base_path all_layers,
        by rw [hall1, hextra, List.append_assoc]⟩

/-- Claim C8 (corrected).  The running "remaining" layer set is NOT updated
from the current rule's unmatched options: the source pushes every rule's
per-layer unmatched lists into a `not_included_layers` vector that is never
cleared, and the truncating `zip` therefore always reads the FIRST rule's
entries.  After processing any non-empty rule sequence, layer i's remaining
options are the first rule's unmatched options for layer i when that list
is non-empty, and layer i's original options otherwise. -/
theorem C8_remaining_from_first_rule :
    ∀ (hash : List String → Nat) (rand : Nat → Nat → Nat)
      (matcher : String → String → Bool) (cfg : ConfigModel)
      (all_layers : List (List String)) (fuel : Nat)
      (r0 : List ForcedCombo × Nat) (rest : List (List ForcedCombo × Nat))
      (st : ForcedState),
      forcedLoop hash rand matcher cfg all_layers fuel (r0 :: rest)
        (initForcedState cfg all_layers) = some st →
      st.remaining =
        updateRemaining all_layers (notIncludedOf r0.1 cfg.base_path all_layers) := by
  intro hash rand matcher cfg all_layers fuel r0 rest st h
  simp only [forcedLoop] at h
  cases hs : forcedStep hash rand matcher cfg all_layers fuel
      (initForcedState cfg all_layers) r0 with
  | none => rw [hs] at h; exact absurd h (by simp)
  | some st1 =>
    rw [hs] at h
    obtain ⟨hrem1, hall1⟩ := forcedStep_state hash rand matcher cfg all_layers fuel
      (initForcedState cfg all_layers) st1 r0 hs
    have hlen : (notIncludedOf r0.1 cfg.base_path all_layers).length =
        all_layers.length := by
      simp [notIncludedOf]
    apply forcedLoop_keeps hash rand matcher cfg all_layers fuel _ hlen rest st1 st h
    · simpa [initForcedState] using hrem1
    · exact ⟨[], by simpa [initForcedState] using hall1⟩

/-- Witness for C8: the two-rules run over one layer of two options ends
with the remaining set dictated by the first rule's unmatched partition. -/
theorem C8_witness :
    (⟨[["i/L/b"]], [["i/L/b"], ["i/L/a"]], [], 2, 0, 1, 2⟩ : ForcedState).remaining =
      updateRemaining [["i/L/a", "i/L/b"]]
        (notIncludedOf [⟨Layer.Simple "L", "a"⟩] "i" [["i/L/a", "i/L/b"]]) :=
  C8_remaining_from_first_rule (fun _ => 0) (fun _ _ => 0) (fun _ _ => false)
    ⟨0, "i", ["L"], none,
      [([⟨Layer.Simple "L", "a"⟩], 0), ([⟨Layer.Simple "L", "b"⟩], 0)]⟩
    [["i/L/a", "i/L/b"]] 1 ([⟨Layer.Simple "L", "a"⟩], 0)
    [([⟨Layer.Simple "L", "b"⟩], 0)]
    ⟨[["i/L/b"]], [["i/L/b"], ["i/L/a"]], [], 2, 0, 1, 2⟩ (by decide)

/-- Counterexample for C8 as stated: with two rules over the single layer
["i/L/a", "i/L/b"] — rule 1 matching "a", rule 2 matching "b" — the second
rule's unmatched options are ["i/L/a"] (non-empty), so the claim requires
the remaining set carried past rule 2 to become [["i/L/a"]]; the code
leaves it at [["i/L/b"]], the first rule's unmatched partition. -/
theorem C8_counterexample :
    (forcedLoop (fun _ => 0) (fun _ _ => 0) (fun _ _ => false)
        ⟨0, "i", ["L"], none,
          [([⟨Layer.Simple "L", "a"⟩], 0), ([⟨Layer.Simple "L", "b"⟩], 0)]⟩
        [["i/L/a", "i/L/b"]] 1
        [([⟨Layer.Simple "L", "a"⟩], 0), ([⟨Layer.Simple "L", "b"⟩], 0)]
        (initForcedState
          ⟨0, "i", ["L"], none,
            [([⟨Layer.Simple "L", "a"⟩], 0), ([⟨Layer.Simple "L", "b"⟩], 0)]⟩
          [["i/L/a", "i/L/b"]])).map ForcedState.remaining =
      some [["i/L/b"]] ∧
    ["i/L/a", "i/L/b"].filter
      (fun f => !(should_include_file [⟨Layer.Simple "L", "b"⟩] f "i")) =
      ["i/L/a"] ∧
    (some [["i/L/b"]] : Option (List (List String))) ≠ some [["i/L/a"]] := by
  decide

/-- Counterexample for C2 as stated: for the layer set [[], ["a"]] the
feasibility ceiling is 1 and the target N = 1 does not exceed it, yet the
single returned combination has length 1, not the number of Layers (2):
the empty layer contributes no position. -/
theorem C2_counterexample :
    get_permutations (fun _ _ => false) [[], ["a"]] none = 1 ∧
    generate_permutations (fun _ => 0) (fun _ => 0) [[], ["a"]] 1 1 =
      some [(0, ["a"])] ∧
    (["a"] : List String).length = 1 ∧
    ([[], ["a"]] : List (List String)).length = 2 ∧
    (1 : Nat) ≠ 2 := by
  decide

/-! ## Unpropagated validation errors in main -/

theorem mainGenerateSection_dropped (hash : List String → Nat)
    (rand : Nat → Nat → Nat) (matcher : String → String → Bool)
    (cfg : ConfigModel) (all_layers : List (List String)) (fuel : Nat)
    (out : MainOutcome) :
    mainGenerateSection hash rand matcher cfg all_layers fuel = some out →
    ((cfg.forced_combinations.map (·.2)).sum > 100 →
      CustomError.TotalPercentageExceeded
        "The sum of the percentages in the forced combinations exceeds 100%." ∈
        out.dropped) ∧
    (out.possible < cfg.total_supply →
      CustomError.InvalidTotalSupply cfg.total_supply out.possible ∈ out.dropped) := by
  intro h
  simp only [mainGenerateSection] at h
  by_cases hfc : cfg.forced_combinations.isEmpty
  · rw [if_pos hfc] at h
    have hnil : cfg.forced_combinations = [] := List.isEmpty_iff.mp hfc
    cases hg : generate_permutations hash (rand 0) all_layers cfg.total_supply fuel with
    | none => simp [hg] at h
    | some perms =>
      simp only [hg, Option.some.injEq] at h
      subst h
      constructor
      · intro habs
        rw [hnil] at habs
        simp at habs
      · intro hlt
        simp only at hlt ⊢
        rw [if_pos hlt]
        simp
  · rw [if_neg hfc] at h
    cases hl : forcedLoop hash rand matcher cfg all_layers fuel
        cfg.forced_combinations (initForcedState cfg all_layers) with
    | none => simp [hl] at h
    | some st =>
      simp only [hl] at h
      cases hg : generate_permutations hash (rand st.callIdx) st.remaining
          st.restPct fuel with
      | none => simp [hg] at h
      | some residual =>
        simp only [hg, Option.some.injEq] at h
        subst h
        constructor
        · intro hpct
          simp only
          apply List.mem_append_left
          rw [if_pos hpct]
          simp
        · intro hlt
          simp only at hlt ⊢
          apply List.mem_append_right
          rw [if_pos hlt]
          simp

/-- Claim C4 (confirmed).  `main` never surfaces the quota-overflow or
infeasible-supply conditions as failures: the only error it can return
comes from trait reconciliation, and under either condition the
corresponding error value (`TotalPercentageExceeded` /
`InvalidTotalSupply`) is merely constructed and discarded (recorded in the
`dropped` field of the outcome) while generation proceeds to an `ok`
result. -/
theorem C4_unpropagated_errors :
    ∀ (hash : List String → Nat) (rand : Nat → Nat → Nat)
      (matcher : String → String → Bool) (filesOf : String → List String)
      (traits : List String) (cfg : ConfigModel) (fuel : Nat),
      (∀ e, mainModel hash rand matcher filesOf traits cfg fuel =
          some (.error e) →
        compare_and_verify_traits traits
          (cfg.layer_folders.map fun f => cfg.base_path ++ f) cfg.base_path =
          .error e) ∧
      (∀ out, mainModel hash rand matcher filesOf traits cfg fuel =
          some (.ok out) →
        ((cfg.forced_combinations.map (·.2)).sum > 100 →
          CustomError.TotalPercentageExceeded
            "The sum of the percentages in the forced combinations exceeds 100%." ∈
            out.dropped) ∧
        (out.possible < cfg.total_supply →
          CustomError.InvalidTotalSupply cfg.total_supply out.possible ∈
            out.dropped)) := by
  intro hash rand matcher filesOf traits cfg fuel
  constructor
  · intro e h
    simp only [mainModel] at h
    cases hcv : compare_and_verify_traits traits
        (cfg.layer_folders.map fun f => cfg.base_path ++ f) cfg.base_path with
    | error e' =>
      simp only [hcv, Option.some.injEq, Except.error.injEq] at h
      exact congrArg Except.error h
    | ok ordered =>
      simp only [hcv] at h
      cases hg : mainGenerateSection hash rand matcher cfg (ordered.map filesOf) fuel with
      | none => simp [hg] at h
      | some out => simp [hg] at h
  · intro out h
    simp only [mainModel] at h
    cases hcv : compare_and_verify_traits traits
        (cfg.layer_folders.map fun f => cfg.base_path ++ f) cfg.base_path with
    | error e' =>
      simp [hcv] at h
    | ok ordered =>
      simp only [hcv] at h
      cases hg : mainGenerateSection hash rand matcher cfg (ordered.map filesOf) fuel with
      | none => simp [hg] at h
      | some out' =>
        simp only [hg, Option.some.injEq, Except.ok.injEq] at h
        subst h
        exact mainGenerateSection_dropped hash rand matcher cfg
          (ordered.map filesOf) fuel out' hg

/-- Witness for C4: a run whose forced percentages sum to 101 and whose
computed feasibility (2, because every option matches the skip pattern) is
below the supply (5) still ends in an `ok` outcome; both error values sit,
discarded, in the outcome. -/
theorem C4_witness :
    CustomError.TotalPercentageExceeded
      "The sum of the percentages in the forced combinations exceeds 100%." ∈
      ([CustomError.TotalPercentageExceeded
          "The sum of the percentages in the forced combinations exceeds 100%.",
        CustomError.InvalidTotalSupply 5 2] : List CustomError) ∧
    CustomError.InvalidTotalSupply 5 2 ∈
      ([CustomError.TotalPercentageExceeded
          "The sum of the percentages in the forced combinations exceeds 100%.",
        CustomError.InvalidTotalSupply 5 2] : List CustomError) := by
  have h := (C4_unpropagated_errors (fun c => (c.headD "").length) (fun _ c => c / 2)
    (fun _ _ => true)
    (fun t => if t = "iL1" then ["i/L1/a", "i/L1/bb", "i/L1/ccc", "i/L1/dddd"]
      else if t = "iL2" then ["i/L2/x"] else [])
    ["iL1", "iL2"]
    ⟨5, "i", ["L1", "L2"], some ["sk"],
      [([⟨Layer.Simple "L1", ""⟩], 80), ([⟨Layer.Simple "L1", "a"⟩], 21)]⟩ 5).2
    ⟨[(6, ["i/L1/a", "i/L2/x"]), (7, ["i/L1/bb", "i/L2/x"]),
      (8, ["i/L1/ccc", "i/L2/x"]), (9, ["i/L1/dddd", "i/L2/x"])], 2, 2,
      [CustomError.TotalPercentageExceeded
        "The sum of the percentages in the forced combinations exceeds 100%.",
       CustomError.InvalidTotalSupply 5 2]⟩ (by rfl)
  exact ⟨h.1 (by decide), h.2 (by decide)⟩

/-! ## Trait reconciliation -/

theorem insertionSort_eq_iff_multiset (as bs : List String) :
    as.insertionSort (fun a b => strLe a b = true) =
        bs.insertionSort (fun a b => strLe a b = true) ↔
      (as : Multiset String) = (bs : Multiset String) := by
  constructor
  · intro h
    rw [Multiset.coe_eq_coe]
    exact ((List.perm_insertionSort _ as).symm.trans
      (h ▸ List.perm_insertionSort (fun a b => strLe a b = true) bs))
  · intro h
    apply List.eq_of_perm_of_sorted (r := fun a b => strLe a b = true)
    · exact (List.perm_insertionSort _ as).trans
        ((Multiset.coe_eq_coe.mp h).trans (List.perm_insertionSort _ bs).symm)
    · exact List.sorted_insertionSort _ as
    · exact List.sorted_insertionSort _ bs

/-- Claim C6 (confirmed).  `compare_and_verify_traits` fails with
`InvalidTrait` when the list lengths differ; fails with `InvalidTrait` when
the multiset of `'#'`-suffix-stripped discovered names differs from the
multiset of configured names (the sorted-list comparison the code performs
is equivalent); and otherwise succeeds, returning a reordering (a
permutation) of the discovered list. -/
theorem C6_reconcile_contract :
    ∀ (disc cfg : List String) (base : String),
      (disc.length ≠ cfg.length →
        ∃ msg, compare_and_verify_traits disc cfg base =
          .error (.InvalidTrait msg)) ∧
      (disc.length = cfg.length →
        (↑(disc.map stripWeightSuffix) : Multiset String) ≠ ↑cfg →
        ∃ msg, compare_and_verify_traits disc cfg base =
          .error (.InvalidTrait msg)) ∧
      (disc.length = cfg.length →
        (↑(disc.map stripWeightSuffix) : Multiset String) = ↑cfg →
        ∃ out, compare_and_verify_traits disc cfg base = .ok out ∧
          out.Perm disc) := by
  intro disc cfg base
  refine ⟨fun hne => ?_, fun heq hms => ?_, fun heq hms => ?_⟩
  · exact ⟨"[traits_by_path: " ++ toString disc.length ++ " traits_by_config: " ++
      toString cfg.length ++ "]", by simp only [compare_and_verify_traits, if_pos hne]⟩
  · have hcond : (disc.map stripWeightSuffix).insertionSort
        (fun a b => strLe a b = true) ≠
        cfg.insertionSort (fun a b => strLe a b = true) :=
      fun h => hms ((insertionSort_eq_iff_multiset _ _).mp h)
    exact ⟨"[traits_by_path and traits_by_config are different]", by
      simp only [compare_and_verify_traits, if_neg (not_not_intro heq), if_pos hcond]⟩
  · have hcond : (disc.map stripWeightSuffix).insertionSort
        (fun a b => strLe a b = true) =
        cfg.insertionSort (fun a b => strLe a b = true) :=
      (insertionSort_eq_iff_multiset _ _).mpr hms
    refine ⟨disc.insertionSort
      (fun a b => bestConfigIndex cfg base a ≤ bestConfigIndex cfg base b), ?_, ?_⟩
    · simp only [compare_and_verify_traits, if_neg (not_not_intro heq),
        if_neg (not_not_intro hcond)]
    · exact List.perm_insertionSort _ disc

/-- Witness for C6: equal multisets (after suffix stripping) reconcile to
an `ok` reordering of the discovered list. -/
theorem C6_witness :
    ∃ out, compare_and_verify_traits ["b#1", "a"] ["a", "b"] "x" = .ok out ∧
      out.Perm ["b#1", "a"] :=
  (C6_reconcile_contract ["b#1", "a"] ["a", "b"] "x").2.2 (by decide) (by decide)

end NftGen
